import Mathlib

/-!
# Verification of `lajittelia` (src/src/main.rs)

A shallow embedding of the file-sorting tool's core logic:

* `generate_aliases` — the Alias Table Builder (main.rs lines 13-56),
* `sort_keys`, `trim_str`, `search_candidates` — the Candidate Matcher
  (main.rs lines 59-160), including the filename normalization pipeline
  (`trim_str`, `.`→space replacement, `convert_case` `Case::Lower`),
* `rename_destination` — the Destination Namer (main.rs lines 166-233).

Filesystem contents are passed in explicitly: directory listings become
`List String` arguments, and the existence check of the rename loop is
membership in a `List (List Char)` of occupied names.  Strings are modelled
on `List Char`; Unicode-aware Rust primitives (`to_lowercase`, regex `\w`,
`str::trim`) are modelled on their ASCII behaviour, which covers every
input the claims mention.
-/

namespace Lajittelia

/-- The `std::io::ErrorKind` values the source constructs. -/
inductive ErrKind where
  | notFound
  | alreadyExists
  | invalidInput
  deriving DecidableEq, Repr

/-! ## Character classes (ASCII models of the Unicode classes Rust uses) -/

/-- ASCII uppercase letter (models `char::is_uppercase` on ASCII). -/
def isUp (c : Char) : Bool := 65 ≤ c.toNat && c.toNat ≤ 90

/-- ASCII lowercase letter (models `char::is_lowercase` on ASCII). -/
def isLow (c : Char) : Bool := 97 ≤ c.toNat && c.toNat ≤ 122

/-- ASCII digit (models `char::is_ascii_digit`, which `convert_case`'s
digit boundaries use). -/
def isDig (c : Char) : Bool := 48 ≤ c.toNat && c.toNat ≤ 57

/-- ASCII model of `char::to_lowercase` / `str::to_lowercase`. -/
def lowerC (c : Char) : Char := if isUp c then Char.ofNat (c.toNat + 32) else c

/-- `str::to_lowercase`, character by character. -/
def strLower (s : String) : String := ⟨s.data.map lowerC⟩

/-- ASCII whitespace, models what `str::trim` removes. -/
def isWS (c : Char) : Bool := c == ' ' || c == '\t' || c == '\n' || c == '\r'

/-- Drop characters satisfying `p` from both ends of a list. -/
def trimBy (p : Char → Bool) (l : List Char) : List Char :=
  ((l.dropWhile p).reverse.dropWhile p).reverse

/-- `str::trim` (whitespace trim from both ends). -/
def rustTrim (s : String) : String := ⟨trimBy isWS s.data⟩

/-! ## Alias Table Builder (`generate_aliases`, main.rs 13-56)

The `HashMap<String, PathBuf>` is modelled as an association list whose
insert replaces an existing binding in place, exactly like
`HashMap::insert`.  Directory reads are modelled by passing the names of
the target directory's immediate subdirectories as a list (in `read_dir`
order); each name also stands for the subdirectory's path value. -/

/-- `HashMap::insert`: replace the binding of `k` if present, else append. -/
def aliasInsert (m : List (String × String)) (k v : String) :
    List (String × String) :=
  if m.any (fun p => p.1 == k) then
    m.map (fun p => if p.1 == k then (k, v) else p)
  else
    m ++ [(k, v)]

/-- `str::split(",")` on the underlying characters. -/
def splitCommaAux : List Char → List Char → List (List Char)
  | [], acc => [acc.reverse]
  | c :: rest, acc =>
    if c = ',' then acc.reverse :: splitCommaAux rest []
    else splitCommaAux rest (c :: acc)

/-- `str::split(",")` of a string, as the list of comma-separated pieces. -/
def splitComma (s : String) : List String :=
  (splitCommaAux s.data []).map (fun l => ⟨l⟩)

/-- One iteration of the `for entry in fs::read_dir(target_dirs)` loop:
process the subdirectory named `dname`.  Note: the source *constructs*
`Error::new(ErrorKind::AlreadyExists, "exists")` when a key is already
present (main.rs 40, 48) but never returns it — the value is dropped and
the insert proceeds, overwriting the existing binding. -/
def aliasStep (entries : List (String × String)) (dname : String) :
    List (String × String) :=
  let name := strLower dname
  if name.data.contains ',' then
    (splitComma name).foldl (fun es n => aliasInsert es (rustTrim n) dname) entries
  else
    aliasInsert entries name dname

/-- `generate_aliases` (main.rs 13-56): fold over the subdirectory names.
The initial `!target_dirs.is_dir()` branch likewise constructs an error
without returning it, so the function always returns `Ok` barring the
I/O failures of `read_dir` (outside this model). -/
def generate_aliases (subdirs : List String) :
    Except ErrKind (List (String × String)) :=
  Except.ok (subdirs.foldl aliasStep [])

/-! ## Candidate Matcher (`sort_keys`, `trim_str`, `search_candidates`,
main.rs 59-160)

`sort_keys` (main.rs 59-72) extracts the alias keys and sorts them by
descending string length with Rust's stable `sort_by`; a stable sort is
modelled by insertion sort.  (`HashMap` iteration order before sorting is
arbitrary; the model takes the association list's order.  None of the
proved properties depend on the order of equal-length keys.) -/

/-- `sort_keys` (main.rs 59-72): alias keys sorted by descending length. -/
def sort_keys (entries : List (String × String)) : List String :=
  List.insertionSort (fun a b => b.length ≤ a.length) (entries.map Prod.fst)

/-- The character set of `trim_str` (main.rs 75). -/
def trimCharsP (c : Char) : Bool := c == '_' || c == '.' || c == '-' || c == ' '

/-- `trim_str` (main.rs 74-78): `trim_matches(&['_', '.', '-', ' '])`. -/
def trim_str (s : String) : String := ⟨trimBy trimCharsP s.data⟩

/-- `Path::file_stem` / `Path::extension` on a file name: split at the last
`.`; no dot, or a leading dot as the only dot, means no extension. -/
def extSplit (l : List Char) : List Char × Option (List Char) :=
  let r := l.reverse
  let p := r.takeWhile (fun c => c != '.')
  if p.length = r.length then (l, none)
  else
    let sr := r.drop (p.length + 1)
    if sr.isEmpty then (l, none)
    else (sr.reverse, some p.reverse)

/-- `str::replace(".", " ")` (main.rs 126). -/
def replaceDots (l : List Char) : List Char :=
  l.map (fun c => if c = '.' then ' ' else c)

/-- The word delimiters removed by `convert_case`'s default boundaries
(underscore, hyphen, space). -/
def isDelim (c : Char) : Bool := c == '_' || c == '-' || c == ' '

/-- The two-character boundaries of `convert_case`'s default set: a word
break falls between `c` and `d` on a lower→upper transition (`LowerUpper`)
or on any of the four letter–digit transitions (`UpperDigit`,
`DigitUpper`, `DigitLower`, `LowerDigit`). -/
def splitBetween (c d : Char) : Bool :=
  (isLow c && isUp d) || (isUp c && isDig d) || (isDig c && isUp d) ||
    (isDig c && isLow d) || (isLow c && isDig d)

/-- `convert_case` word splitting with the default boundaries: split at
(and drop) the delimiters underscore, hyphen and space; split between two
characters at a lower→upper or letter–digit transition (`splitBetween`);
and split inside an acronym before its final uppercase letter (upper,
upper, lower).  `acc` holds the current word reversed. -/
def splitWordsAux : List Char → List Char → List (List Char)
  | [], acc => [acc.reverse]
  | c :: rest, acc =>
    if isDelim c then acc.reverse :: splitWordsAux rest []
    else
      match rest with
      | [] => [(c :: acc).reverse]
      | d :: rest2 =>
        if splitBetween c d then (c :: acc).reverse :: splitWordsAux rest []
        else
          match rest2 with
          | e :: _ =>
            if isUp c && isUp d && isLow e then
              (c :: acc).reverse :: splitWordsAux rest []
            else splitWordsAux rest (c :: acc)
          | [] => splitWordsAux rest (c :: acc)

/-- The words of a string under `convert_case`'s default boundaries
(empty segments are discarded). -/
def splitWords (l : List Char) : List (List Char) :=
  (splitWordsAux l []).filter (fun w => !w.isEmpty)

/-- Join words with single spaces (the `Case::Lower` delimiter). -/
def joinWords : List (List Char) → List Char
  | [] => []
  | [w] => w
  | w :: ws => w ++ ' ' :: joinWords ws

/-- `to_case(Case::Lower)` (main.rs 127): split into words, lowercase each
word, join with single spaces. -/
def toCaseLower (l : List Char) : List Char :=
  joinWords ((splitWords l).map (List.map lowerC))

/-- The normalization pipeline of main.rs 125-127 on a string's
characters: `trim_str`, replace dots with spaces, convert to
`Case::Lower`. -/
def pipelineL (l : List Char) : List Char :=
  toCaseLower (replaceDots (trimBy trimCharsP l))

/-- The normalization pipeline of main.rs 123-127 on the raw characters of
a file name: take the file stem, then apply `pipelineL`. -/
def normalizeL (l : List Char) : List Char :=
  pipelineL (extSplit l).1

/-- The main.rs 125-127 normalization pipeline as a string function (the
part of normalization after extension stripping). -/
def normalizePipeline (s : String) : String := ⟨pipelineL s.data⟩

/-- The Normalized Filename (`modified` in main.rs 123-127). -/
def normalizeName (fname : String) : String := ⟨normalizeL fname.data⟩

/-- Regex word character `\w` (ASCII model of the Unicode class). -/
def isWordChar (c : Char) : Bool := isUp c || isLow c || c.isDigit || c == '_'

/-- Whether the character at index `i` of `s` exists and is a word
character. -/
def wordCharAt (s : List Char) (i : Nat) : Bool :=
  match s.drop i with
  | [] => false
  | c :: _ => isWordChar c

/-- Regex `\b`: position `i` (between indices `i-1` and `i`) is a word
boundary. -/
def boundaryAt (s : List Char) (i : Nat) : Bool :=
  match i with
  | 0 => wordCharAt s 0
  | j + 1 => wordCharAt s j != wordCharAt s (j + 1)

/-- The compiled pattern `\b{escape(alias)}\b` (main.rs 101-105) tested
with `Regex::is_match`: some occurrence of the literal `pat` in `s` has
word boundaries on both sides. -/
def wordMatch (pat s : List Char) : Bool :=
  (List.range (s.length + 1)).any (fun i =>
    ((s.drop i).take pat.length == pat) && boundaryAt s i
      && boundaryAt s (i + pat.length))

/-- The aliases whose pattern matches the normalized name (the contents of
`alias_matches`, main.rs 133-144, in sequential order; see the
order-independence theorem for the concurrent reading). -/
def matchedAliases (aliases : List String) (modified : String) : List String :=
  aliases.filter (fun a => wordMatch a.data modified.data)

/-- Processing of one file entry (main.rs 119-155): normalize the name,
skip it if the normalized form is empty, otherwise classify by the number
of matching aliases — none: ignored; exactly one: a Candidate bound to
that alias; more than one: an Ambiguous file. -/
def candStep (aliases : List String)
    (acc : List (String × String) × List String) (fname : String) :
    List (String × String) × List String :=
  let modified := normalizeName fname
  if modified.data.isEmpty then acc
  else
    match matchedAliases aliases modified with
    | [] => acc
    | [a] => (acc.1 ++ [(fname, a)], acc.2)
    | _ => (acc.1, acc.2 ++ [fname])

/-- `search_candidates` (main.rs 81-160).  Each source directory is given
as the list of names of its non-directory entries (directory entries are
skipped at main.rs 115, non-existing sources at main.rs 108; both are I/O
concerns outside the model).  Note: main.rs 91-93 *constructs*
`Error::new(ErrorKind::NotFound, "no sources")` for an empty source list
but never returns it — the value is dropped and the function proceeds to
return `Ok` with empty results. -/
def searchCandidates (entries : List (String × String))
    (sources : List (List String)) :
    Except ErrKind (List (String × String) × List String) :=
  let aliases := sort_keys entries
  Except.ok (sources.foldl (fun acc files => files.foldl (candStep aliases) acc)
    ([], []))

/-! ## Destination Namer (`rename_destination`, main.rs 166-233)

Paths inside the target directory are modelled by their file names
(`List Char`); the target directory's contents (the existence checks of
`new_path.exists()`) are a list `fs` of occupied names.  The loop is
written with explicit fuel; `fs.length + 1` iterations always reach either
a free name or fuel exhaustion (`none`), and every proved property holds
for any fuel. -/

/-- Parse of the suffix regex ` \((\d+)\)$` (main.rs 181) against a file
stem, combined with the slicing of main.rs 213-216: on a match, return
the stem part before the ` (` (i.e. `stem[0..start-2]`) and the captured
number `N`. -/
def suffixSplit (stem : List Char) : Option (List Char × Nat) :=
  match stem.reverse with
  | ')' :: r1 =>
    let ds := r1.takeWhile Char.isDigit
    if ds.isEmpty then none
    else
      match r1.drop ds.length with
      | '(' :: ' ' :: r2 =>
        some (r2.reverse,
          ds.reverse.foldl (fun n c => 10 * n + (c.toNat - 48)) 0)
      | _ => none
  | _ => none

/-- `format!("{} ({}).{}", stem, n, ext)` (main.rs 194-198, 219-225). -/
def mkSuffixed (stem : List Char) (n : Nat) (ext : List Char) : List Char :=
  stem ++ [' ', '('] ++ Nat.toDigits 10 n ++ [')', '.'] ++ ext

/-- The `loop` of main.rs 183-230: if the candidate name is free, stop;
otherwise either append ` (1)` before the extension (no existing suffix)
or replace the existing ` (N)` by ` (N+1)`, and retry. -/
def renameLoop (fuel : Nat) (fs : List (List Char)) (ext : List Char)
    (cand : List Char) : Option (List Char) :=
  match fuel with
  | 0 => none
  | f + 1 =>
    if cand ∈ fs then
      match suffixSplit (extSplit cand).1 with
      | none => renameLoop f fs ext (mkSuffixed (extSplit cand).1 1 ext)
      | some (base, n) => renameLoop f fs ext (mkSuffixed base (n + 1) ext)
    else some cand

/-- `rename_destination` (main.rs 166-233).  The first candidate is the
source's file name inside the target directory; the extension is extracted
once, up front, by `extension().unwrap()` (main.rs 178) — a missing
extension panics, modelled as `none`.  (The `!target_dir.is_dir()` check
at main.rs 170-172 constructs an `ErrorKind::InvalidInput` error but never
returns it.) -/
def rename_destination (sourceName : List Char) (fs : List (List Char)) :
    Option (List Char) :=
  match (extSplit sourceName).2 with
  | none => none
  | some ext => renameLoop (fs.length + 1) fs ext sourceName

end Lajittelia

namespace Lajittelia

example : generate_aliases ["Movies, Films"] =
    Except.ok [("movies", "Movies, Films"), ("films", "Movies, Films")] := rfl

example : generate_aliases ["Movies", "movies, TV"] =
    Except.ok [("movies", "movies, TV"), ("tv", "movies, TV")] := rfl

example : generate_aliases [" Movies "] =
    Except.ok [(" movies ", " Movies ")] := rfl

example : normalizeName "My.Movie_Name-2020.mkv" = "my movie name 2020" := rfl

example : normalizeName "Terminator2.mkv" = "terminator 2" := rfl

example : normalizePipeline "Movie2020" = "movie 2020" := rfl

example : normalizePipeline "E5150" = "e 5150" := rfl

example :
    searchCandidates [("terminator", "T")] [["Terminator2.mkv"]] =
    Except.ok ([("Terminator2.mkv", "terminator")], []) := rfl

example : wordMatch "star wars".data "star wars episode 4".data = true := by decide

example : wordMatch "wars".data "star wars episode 4".data = true := by decide

example : wordMatch "war".data "star wars episode 4".data = false := by decide

example :
    searchCandidates [("star wars", "SW"), ("wars", "W")]
      [["star.wars.episode.4.mkv"]] =
    Except.ok ([], ["star.wars.episode.4.mkv"]) := rfl

example :
    searchCandidates [("movies", "M"), ("tv", "T")] [["random.notes.txt"]] =
    Except.ok ([], []) := rfl

example :
    searchCandidates [("movies", "M"), ("tv", "T")] [["Best.Movies.2020.mkv"]] =
    Except.ok ([("Best.Movies.2020.mkv", "movies")], []) := rfl

example : rename_destination "report.pdf".data [] = some "report.pdf".data := rfl

example : rename_destination "report.pdf".data ["report.pdf".data] =
    some "report (1).pdf".data := rfl

example :
    rename_destination "report.pdf".data
      ["report.pdf".data, "report (1).pdf".data] =
    some "report (2).pdf".data := rfl

example :
    rename_destination "report.pdf".data
      ["report.pdf".data, "report (1).pdf".data, "report (3).pdf".data] =
    some "report (2).pdf".data := rfl

example : rename_destination "report".data [] = none := rfl

/-! ## Theorems about the Destination Namer -/

/-- The rename loop only ever stops at a name that fails the existence
check. -/
theorem renameLoop_some_not_mem (fuel : Nat) (fs : List (List Char))
    (ext : List Char) :
    ∀ cand r, renameLoop fuel fs ext cand = some r → r ∉ fs := by
  induction fuel with
  | zero => intro cand r h; simp [renameLoop] at h
  | succ f ih =>
    intro cand r h
    by_cases hc : cand ∈ fs
    · rw [renameLoop, if_pos hc] at h
      cases hs : suffixSplit (extSplit cand).1 with
      | none => rw [hs] at h; exact ih _ _ h
      | some p => rw [hs] at h; exact ih _ _ h
    · rw [renameLoop, if_neg hc] at h
      cases h
      exact hc

/-- **C2.** Destination naming: for source file `report.pdf`, an empty
target yields `report.pdf`; with `report.pdf` occupied it yields
`report (1).pdf`; with both occupied, `report (2).pdf`.  In general each
loop iteration whose candidate exists either appends ` (1)` before the
extension (no trailing ` (N)` in the stem) or strips the old ` (N)`
exactly and re-emits with `N + 1`, retrying until a free path is found. -/
theorem rename_destination_suffix_cases :
    rename_destination "report.pdf".data [] = some "report.pdf".data ∧
    rename_destination "report.pdf".data ["report.pdf".data] =
      some "report (1).pdf".data ∧
    rename_destination "report.pdf".data
        ["report.pdf".data, "report (1).pdf".data] =
      some "report (2).pdf".data ∧
    (∀ (fs : List (List Char)) (ext cand : List Char) (f : Nat),
      cand ∈ fs → suffixSplit (extSplit cand).1 = none →
      renameLoop (f + 1) fs ext cand =
        renameLoop f fs ext (mkSuffixed (extSplit cand).1 1 ext)) ∧
    (∀ (fs : List (List Char)) (ext cand base : List Char) (n f : Nat),
      cand ∈ fs → suffixSplit (extSplit cand).1 = some (base, n) →
      renameLoop (f + 1) fs ext cand =
        renameLoop f fs ext (mkSuffixed base (n + 1) ext)) := by
  refine ⟨rfl, rfl, rfl, ?_, ?_⟩
  · intro fs ext cand f hm hs
    rw [renameLoop, if_pos hm, hs]
  · intro fs ext cand base n f hm hs
    rw [renameLoop, if_pos hm, hs]

/-- Witness for `rename_destination_suffix_cases`: the two general loop
steps at concrete inputs. -/
theorem rename_destination_suffix_cases_witness :
    ("doc (1).pdf".data ∈ ["doc (1).pdf".data] ∧
      suffixSplit (extSplit "doc (1).pdf".data).1 = some ("doc".data, 1) ∧
      renameLoop 3 ["doc (1).pdf".data] "pdf".data "doc (1).pdf".data =
        renameLoop 2 ["doc (1).pdf".data] "pdf".data
          (mkSuffixed "doc".data 2 "pdf".data)) ∧
    ("notes.txt".data ∈ ["notes.txt".data] ∧
      suffixSplit (extSplit "notes.txt".data).1 = none ∧
      renameLoop 3 ["notes.txt".data] "txt".data "notes.txt".data =
        renameLoop 2 ["notes.txt".data] "txt".data
          (mkSuffixed (extSplit "notes.txt".data).1 1 "txt".data)) :=
  ⟨⟨by decide, rfl,
    rename_destination_suffix_cases.2.2.2.2 ["doc (1).pdf".data] "pdf".data
      "doc (1).pdf".data "doc".data 1 2 (by decide) rfl⟩,
   ⟨by decide, rfl,
    rename_destination_suffix_cases.2.2.2.1 ["notes.txt".data] "txt".data
      "notes.txt".data 2 (by decide) rfl⟩⟩

/-- **C5.** Every path `rename_destination` returns is absent from the
modelled filesystem at computation time: the loop stops only at a name
whose existence check fails, for every starting file name and every
pre-existing set of occupied names (gap-filled numeric suffixes
included). -/
theorem rename_destination_no_overwrite :
    ∀ (name : List Char) (fs : List (List Char)) (r : List Char),
      rename_destination name fs = some r → r ∉ fs := by
  intro name fs r h
  unfold rename_destination at h
  cases he : (extSplit name).2 with
  | none => rw [he] at h; cases h
  | some ext => rw [he] at h; exact renameLoop_some_not_mem _ _ _ _ _ h

/-- Witness for `rename_destination_no_overwrite`: the name chosen for
`report.pdf` against a gap-filled directory is not among the occupied
names. -/
theorem rename_destination_no_overwrite_witness :
    "report (2).pdf".data ∉
      ["report.pdf".data, "report (1).pdf".data, "report (3).pdf".data] :=
  rename_destination_no_overwrite "report.pdf".data
    ["report.pdf".data, "report (1).pdf".data, "report (3).pdf".data]
    "report (2).pdf".data rfl

/-- **C9.** A source file name without an extension makes
`rename_destination` fail: `extension().unwrap()` (main.rs 178) has no
value to yield (a panic, modelled as `none`), so no destination path is
returned. -/
theorem rename_destination_fails_without_extension :
    ∀ (name : List Char) (fs : List (List Char)),
      (extSplit name).2 = none → rename_destination name fs = none := by
  intro name fs h
  simp [rename_destination, h]

/-- Witness for `rename_destination_fails_without_extension` at the
extensionless name `report`. -/
theorem rename_destination_fails_without_extension_witness :
    (extSplit "report".data).2 = none ∧
      rename_destination "report".data [] = none :=
  ⟨rfl, rename_destination_fails_without_extension "report".data [] rfl⟩

/-! ## Theorems about the Alias Table Builder -/

/-- **C1.** The duplicate-alias case of `generate_aliases` does *not*
fail: main.rs 40 and 48 construct `Error::new(ErrorKind::AlreadyExists,
"exists")` but never return it, so with subdirectories `Movies` and
`movies, TV` the table is returned `Ok` with the earlier
`"movies" ↦ Movies` binding silently overwritten by the later one. -/
theorem generate_aliases_duplicate_silently_overwrites :
    generate_aliases ["Movies", "movies, TV"] =
      Except.ok [("movies", "movies, TV"), ("tv", "movies, TV")] := rfl

/-- The inserted binding is present after `aliasInsert`. -/
theorem aliasInsert_mem_self (es : List (String × String)) (k v : String) :
    (k, v) ∈ aliasInsert es k v := by
  unfold aliasInsert
  split
  · next h =>
    rw [List.any_eq_true] at h
    obtain ⟨p, hp, hpk⟩ := h
    rw [List.mem_map]
    exact ⟨p, hp, by simp [hpk]⟩
  · exact List.mem_append_right _ (List.mem_singleton.mpr rfl)

/-- A binding whose value equals the inserted value survives
`aliasInsert` (the overwrite writes the same value back). -/
theorem aliasInsert_mem_preserve (es : List (String × String))
    (k k' v : String) (h : (k, v) ∈ es) : (k, v) ∈ aliasInsert es k' v := by
  unfold aliasInsert
  split
  · rw [List.mem_map]
    refine ⟨(k, v), h, ?_⟩
    by_cases hk : ((k, v).1 == k') = true
    · simp only [hk, if_true]
      simp only [Prod.fst] at hk
      rw [beq_iff_eq] at hk
      rw [hk]
    · simp [hk]
  · exact List.mem_append_left _ h

/-- Folding `aliasInsert` with a fixed value keeps such bindings. -/
theorem foldl_aliasInsert_mem (f : String → String) (v : String) :
    ∀ (ns : List String) (es : List (String × String)) (k : String),
      (k, v) ∈ es →
      (k, v) ∈ ns.foldl (fun es n => aliasInsert es (f n) v) es := by
  intro ns
  induction ns with
  | nil => intro es k h; exact h
  | cons n ns ih =>
    intro es k h
    exact ih _ _ (aliasInsert_mem_preserve _ _ _ _ h)

/-- Folding `aliasInsert` over a list of names inserts every name's key. -/
theorem foldl_aliasInsert_mem_of_elem (f : String → String) (v : String) :
    ∀ (ns : List String) (es : List (String × String)) (n : String),
      n ∈ ns →
      (f n, v) ∈ ns.foldl (fun es m => aliasInsert es (f m) v) es := by
  intro ns
  induction ns with
  | nil => intro es n h; cases h
  | cons m ns ih =>
    intro es n h
    rcases List.mem_cons.mp h with h1 | h2
    · subst h1
      exact foldl_aliasInsert_mem f v ns _ _ (aliasInsert_mem_self _ _ _)
    · exact ih _ _ h2

/-- **C6 counterexample.** A subdirectory name without commas is
lowercased but *not* trimmed: ` Movies ` yields the alias key ` movies `,
which is not a trimmed string, refuting the claim that every derived
alias key is lowercased *and* trimmed. -/
theorem generate_aliases_key_not_trimmed :
    generate_aliases [" Movies "] = Except.ok [(" movies ", " Movies ")] ∧
      rustTrim " movies " ≠ " movies " :=
  ⟨rfl, by decide⟩

/-- **C6 (amended).** Alias keys are lowercased; trimming happens only in
the comma case.  A subdirectory name without commas yields the whole
lowercased (untrimmed) name as its single alias key; a name containing
commas yields, for each comma-separated segment, the whitespace-trimmed
segment as a key mapping to that same subdirectory — concretely,
`Movies, Films` yields exactly `movies` and `films`, both mapping to that
directory. -/
theorem generate_aliases_key_shape :
    (∀ dname : String, (strLower dname).data.contains ',' = false →
      generate_aliases [dname] = Except.ok [(strLower dname, dname)]) ∧
    (∀ dname : String, (strLower dname).data.contains ',' = true →
      ∀ n ∈ splitComma (strLower dname),
        (rustTrim n, dname) ∈ aliasStep [] dname) ∧
    generate_aliases ["Movies, Films"] =
      Except.ok [("movies", "Movies, Films"), ("films", "Movies, Films")] := by
  refine ⟨?_, ?_, rfl⟩
  · intro dname h
    unfold generate_aliases
    simp only [List.foldl_cons, List.foldl_nil]
    unfold aliasStep
    simp only [h, Bool.false_eq_true, if_false]
    simp [aliasInsert]
  · intro dname h n hn
    unfold aliasStep
    simp only [h, if_true]
    exact foldl_aliasInsert_mem_of_elem rustTrim dname _ _ _ hn

/-- Witness for `generate_aliases_key_shape`: the no-comma case at
`Television` and the comma case at segment ` films` of `Movies, Films`. -/
theorem generate_aliases_key_shape_witness :
    generate_aliases ["Television"] = Except.ok [("television", "Television")] ∧
      (rustTrim " films", "Movies, Films") ∈ aliasStep [] "Movies, Films" :=
  ⟨generate_aliases_key_shape.1 "Television" (by decide),
   generate_aliases_key_shape.2.1 "Movies, Films" (by decide) " films"
     (by decide)⟩

/-! ## Theorems about the Candidate Matcher -/

/-- **C7.** An empty source list does *not* make `search_candidates`
fail: main.rs 91-93 construct `Error::new(ErrorKind::NotFound,
"no sources")` but never return it, so the function returns `Ok` with
empty candidate and ambiguous outputs. -/
theorem searchCandidates_empty_sources_returns_ok :
    ∀ entries : List (String × String),
      searchCandidates entries [] = Except.ok ([], []) :=
  fun _ => rfl

/-- No pattern matches the empty string: `\b` needs an adjacent word
character. -/
theorem wordMatch_nil (pat : List Char) : wordMatch pat [] = false := by
  simp [wordMatch, boundaryAt, wordCharAt, List.range_succ]

/-- A file whose normalized name is empty matches no alias. -/
theorem matchedAliases_empty_name (aliases : List String) (m : String)
    (h : m.data = []) : matchedAliases aliases m = [] := by
  simp [matchedAliases, h, wordMatch_nil]

/-- **C4.** Normalization maps `My.Movie_Name-2020.mkv` to
`my movie name 2020` (extension stripped, boundary `_ . - ` trim, dots to
spaces, lowercase word split), and a file whose normalized name is empty
is skipped: it becomes neither a Candidate nor Ambiguous. -/
theorem normalization_and_empty_skip :
    normalizeName "My.Movie_Name-2020.mkv" = "my movie name 2020" ∧
    ∀ (entries : List (String × String)) (fname : String),
      normalizeName fname = "" →
      searchCandidates entries [[fname]] = Except.ok ([], []) := by
  refine ⟨rfl, ?_⟩
  intro entries fname h
  have hd : (normalizeName fname).data = [] := by
    simpa using congrArg String.data h
  simp [searchCandidates, candStep, hd]

/-- Witness for `normalization_and_empty_skip`: the file `___.mkv`
normalizes to the empty string and is skipped. -/
theorem normalization_and_empty_skip_witness :
    normalizeName "___.mkv" = "" ∧
      searchCandidates [("movies", "M")] [["___.mkv"]] = Except.ok ([], []) :=
  ⟨rfl, normalization_and_empty_skip.2 [("movies", "M")] "___.mkv" rfl⟩

/-- **C3.** Classification of a scanned file depends only on the list of
whole-word-matching aliases: exactly one match makes the file a Candidate
bound to that alias; two or more simultaneous matches (a short alias and a
longer alias containing it included) make it Ambiguous, with no alias
chosen automatically. -/
theorem searchCandidates_classification :
    ∀ (entries : List (String × String)) (fname : String),
      (∀ a : String,
        matchedAliases (sort_keys entries) (normalizeName fname) = [a] →
        searchCandidates entries [[fname]] = Except.ok ([(fname, a)], [])) ∧
      (∀ (a b : String) (rest : List String),
        matchedAliases (sort_keys entries) (normalizeName fname) =
          a :: b :: rest →
        searchCandidates entries [[fname]] = Except.ok ([], [fname])) := by
  intro entries fname
  have hne : ∀ x : List String,
      matchedAliases (sort_keys entries) (normalizeName fname) = x →
      x ≠ [] → ¬ (normalizeName fname).data.isEmpty = true := by
    intro x hM hx hb
    rw [matchedAliases_empty_name _ _ (by simpa using hb)] at hM
    exact hx hM.symm
  constructor
  · intro a hM
    have hd := hne [a] hM (by simp)
    simp only [searchCandidates, List.foldl_cons, List.foldl_nil, candStep]
    rw [if_neg hd, hM]
    simp
  · intro a b rest hM
    have hd := hne (a :: b :: rest) hM (by simp)
    simp only [searchCandidates, List.foldl_cons, List.foldl_nil, candStep]
    rw [if_neg hd, hM]
    simp

/-- Witness for `searchCandidates_classification`: against aliases
`star wars` and `wars`, the file `star.wars.episode.4.mkv` matches both as
whole words and is Ambiguous, not auto-resolved to the longer alias. -/
theorem searchCandidates_classification_witness :
    searchCandidates [("star wars", "SW"), ("wars", "W")]
        [["star.wars.episode.4.mkv"]] =
      Except.ok ([], ["star.wars.episode.4.mkv"]) :=
  (searchCandidates_classification [("star wars", "SW"), ("wars", "W")]
    "star.wars.episode.4.mkv").2 "star wars" "wars" [] rfl

/-- **C8.** The matched-alias collection is order-independent: evaluating
the alias patterns in any order (any permutation of the alias list, as the
parallel threads may interleave) yields the same multiset, the same set,
and the same number of matched aliases as sequential evaluation. -/
theorem matchedAliases_order_independent :
    ∀ (aliases order : List String) (modified : String),
      order.Perm aliases →
      (matchedAliases order modified).Perm
          (matchedAliases aliases modified) ∧
        (matchedAliases order modified).toFinset =
          (matchedAliases aliases modified).toFinset ∧
        (matchedAliases order modified).length =
          (matchedAliases aliases modified).length := by
  intro aliases order modified h
  have hp := h.filter (fun a => wordMatch a.data modified.data)
  exact ⟨hp, List.toFinset_eq_of_perm _ _ hp, hp.length_eq⟩

/-- Witness for `matchedAliases_order_independent`: testing `wars` before
`star wars` collects the same matches as the sorted order. -/
theorem matchedAliases_order_independent_witness :
    (matchedAliases ["wars", "star wars"] "star wars episode 4").Perm
        (matchedAliases ["star wars", "wars"] "star wars episode 4") ∧
      (matchedAliases ["wars", "star wars"] "star wars episode 4").toFinset =
        (matchedAliases ["star wars", "wars"] "star wars episode 4").toFinset ∧
      (matchedAliases ["wars", "star wars"] "star wars episode 4").length =
        (matchedAliases ["star wars", "wars"] "star wars episode 4").length :=
  matchedAliases_order_independent ["star wars", "wars"] ["wars", "star wars"]
    "star wars episode 4" (List.Perm.swap "star wars" "wars" [])

/-! ## Idempotence of the normalization pipeline

The pipeline of main.rs 125-127 (`trim_str`, dot replacement,
`Case::Lower`) produces a string of nonempty lowercase words joined by
single spaces, containing none of the trimmed or delimiter characters;
such a string is a fixed point of the pipeline. -/

/-- `Char.ofNat` inverts `Char.toNat` below the surrogate range. -/
theorem charToNat_ofNat (n : Nat) (h : n < 1000) :
    (Char.ofNat n).toNat = n := by
  have hv : n.isValidChar := Or.inl (by omega)
  simp [Char.ofNat, hv, Char.ofNatAux, Char.toNat, UInt32.toNat,
    BitVec.toNat_ofNatLt]

/-- Lowercasing never yields an uppercase letter. -/
theorem isUp_lowerC (c : Char) : isUp (lowerC c) = false := by
  unfold lowerC
  split
  · next h =>
    unfold isUp at h
    rw [Bool.and_eq_true, decide_eq_true_iff, decide_eq_true_iff] at h
    have ht : (Char.ofNat (c.toNat + 32)).toNat = c.toNat + 32 :=
      charToNat_ofNat _ (by omega)
    unfold isUp
    rw [ht]
    simp
    omega
  · next h =>
    unfold isUp at h ⊢
    exact Bool.of_not_eq_true h

/-- Lowercasing fixes anything that is not an uppercase letter. -/
theorem lowerC_eq_self (c : Char) (h : isUp c = false) : lowerC c = c := by
  unfold lowerC
  rw [h]
  simp

/-- A lowercased uppercase letter lands in the lowercase code range. -/
theorem lowerC_upper_bounds (c : Char) (hu : isUp c = true) :
    97 ≤ (lowerC c).toNat ∧ (lowerC c).toNat ≤ 122 := by
  have hu' := hu
  unfold isUp at hu'
  rw [Bool.and_eq_true, decide_eq_true_iff, decide_eq_true_iff] at hu'
  unfold lowerC
  rw [if_pos hu]
  rw [charToNat_ofNat _ (by omega)]
  omega

/-- Characters in the lowercase code range are not delimiters. -/
theorem not_delim_of_lower_range (x : Char) (h1 : 97 ≤ x.toNat) :
    isDelim x = false := by
  unfold isDelim
  rw [Bool.or_eq_false_iff, Bool.or_eq_false_iff]
  refine ⟨⟨?_, ?_⟩, ?_⟩ <;>
    · rw [beq_eq_false_iff_ne]
      intro he
      rw [he] at h1
      exact absurd h1 (by decide)

/-- Characters in the lowercase code range are not dots. -/
theorem not_dot_of_lower_range (x : Char) (h1 : 97 ≤ x.toNat) :
    ¬ x = '.' := by
  intro he
  rw [he] at h1
  exact absurd h1 (by decide)

/-- Characters in the lowercase code range are not digits. -/
theorem not_dig_of_lower_range (x : Char) (h1 : 97 ≤ x.toNat) :
    isDig x = false := by
  have h2 : decide (x.toNat ≤ 57) = false := by
    rw [decide_eq_false_iff_not]
    omega
  unfold isDig
  rw [h2, Bool.and_false]

/-- Lowercasing cannot produce a dot. -/
theorem lowerC_ne_dot (c : Char) (h : ¬ c = '.') : ¬ lowerC c = '.' := by
  by_cases hu : isUp c = true
  · exact not_dot_of_lower_range _ (lowerC_upper_bounds c hu).1
  · rw [lowerC_eq_self c (Bool.of_not_eq_true hu)]
    exact h

/-- Lowercasing cannot produce a delimiter. -/
theorem isDelim_lowerC (c : Char) (h : isDelim c = false) :
    isDelim (lowerC c) = false := by
  by_cases hu : isUp c = true
  · exact not_delim_of_lower_range _ (lowerC_upper_bounds c hu).1
  · rw [lowerC_eq_self c (Bool.of_not_eq_true hu)]
    exact h

/-- No word boundary falls before a space. -/
theorem splitBetween_space (x : Char) : splitBetween x ' ' = false := by
  unfold splitBetween
  rw [show isUp ' ' = false from rfl, show isLow ' ' = false from rfl,
    show isDig ' ' = false from rfl]
  simp

/-- Lowercasing both sides of a boundary-free pair keeps it
boundary-free: uppercase letters become lowercase letters, and the
letter–digit transitions the pair could acquire are exactly those the
original pair would already have had. -/
theorem splitBetween_lowerC (x y : Char) (h : splitBetween x y = false) :
    splitBetween (lowerC x) (lowerC y) = false := by
  have hux : isUp (lowerC x) = false := isUp_lowerC x
  have huy : isUp (lowerC y) = false := isUp_lowerC y
  unfold splitBetween at h ⊢
  rw [Bool.or_eq_false_iff, Bool.or_eq_false_iff, Bool.or_eq_false_iff,
    Bool.or_eq_false_iff] at h
  obtain ⟨⟨⟨⟨ha, hb⟩, hc⟩, hd⟩, he⟩ := h
  rw [Bool.or_eq_false_iff, Bool.or_eq_false_iff, Bool.or_eq_false_iff,
    Bool.or_eq_false_iff]
  refine ⟨⟨⟨⟨?_, ?_⟩, ?_⟩, ?_⟩, ?_⟩
  · rw [huy, Bool.and_false]
  · rw [hux, Bool.false_and]
  · rw [huy, Bool.and_false]
  · by_cases hx : isUp x = true
    · rw [not_dig_of_lower_range _ (lowerC_upper_bounds x hx).1,
        Bool.false_and]
    · rw [lowerC_eq_self x (Bool.of_not_eq_true hx)]
      by_cases hy : isUp y = true
      · rw [hy, Bool.and_true] at hc
        rw [hc, Bool.false_and]
      · rw [lowerC_eq_self y (Bool.of_not_eq_true hy)]
        exact hd
  · by_cases hy : isUp y = true
    · rw [not_dig_of_lower_range _ (lowerC_upper_bounds y hy).1,
        Bool.and_false]
    · rw [lowerC_eq_self y (Bool.of_not_eq_true hy)]
      by_cases hx : isUp x = true
      · rw [hx, Bool.true_and] at hb
        rw [hb, Bool.and_false]
      · rw [lowerC_eq_self x (Bool.of_not_eq_true hx)]
        exact he

/-- A non-delimiter, non-dot character passes the `trim_str` filter. -/
theorem trimCharsP_eq_false (c : Char) (h1 : isDelim c = false)
    (h2 : ¬ c = '.') : trimCharsP c = false := by
  unfold isDelim at h1
  rw [Bool.or_eq_false_iff, Bool.or_eq_false_iff] at h1
  unfold trimCharsP
  rw [Bool.or_eq_false_iff, Bool.or_eq_false_iff, Bool.or_eq_false_iff]
  exact ⟨⟨⟨h1.1.1, beq_eq_false_iff_ne.mpr h2⟩, h1.1.2⟩, h1.2⟩

/-- Mapping a function that fixes every element is the identity. -/
theorem list_map_id_of {α : Type} (f : α → α) :
    ∀ l : List α, (∀ a ∈ l, f a = a) → l.map f = l := by
  intro l
  induction l with
  | nil => intro _; rfl
  | cons a t ih =>
    intro h
    rw [List.map_cons, h a (by simp), ih (fun b hb => h b (by simp [hb]))]

/-- Lowercasing a word without uppercase letters is the identity. -/
theorem map_lowerC_eq_self (w : List Char) (h : ∀ c ∈ w, isUp c = false) :
    w.map lowerC = w :=
  list_map_id_of lowerC w (fun c hc => lowerC_eq_self c (h c hc))

/-- Dot replacement on a dot-free list is the identity. -/
theorem replaceDots_eq_self (l : List Char) (h : ∀ c ∈ l, ¬ c = '.') :
    replaceDots l = l :=
  list_map_id_of _ l (fun c hc => if_neg (h c hc))

/-- Dot replacement leaves no dots. -/
theorem replaceDots_no_dot (l : List Char) :
    ∀ c ∈ replaceDots l, ¬ c = '.' := by
  intro c hc
  unfold replaceDots at hc
  rw [List.mem_map] at hc
  obtain ⟨a, _, ha⟩ := hc
  subst ha
  split
  · decide
  · next h => exact h

/-- Every character of a word emitted by the splitter is a non-delimiter
character of the input, or comes from the accumulator. -/
theorem splitWordsAux_chars :
    ∀ (l acc : List Char), ∀ w ∈ splitWordsAux l acc, ∀ c ∈ w,
      (isDelim c = false ∧ c ∈ l) ∨ c ∈ acc := by
  intro l
  induction l with
  | nil =>
    intro acc w hw c hc
    simp only [splitWordsAux, List.mem_singleton] at hw
    subst hw
    exact Or.inr (List.mem_reverse.mp hc)
  | cons hd tl ih =>
    intro acc w hw c hc
    by_cases hdel : isDelim hd = true
    · simp only [splitWordsAux, hdel, if_true] at hw
      rcases List.mem_cons.mp hw with h1 | h2
      · subst h1
        exact Or.inr (List.mem_reverse.mp hc)
      · rcases ih [] w h2 c hc with ⟨h3, h4⟩ | h5
        · exact Or.inl ⟨h3, List.mem_cons_of_mem _ h4⟩
        · cases h5
    · have hdel' : isDelim hd = false := Bool.of_not_eq_true hdel
      cases tl with
      | nil =>
        simp only [splitWordsAux, hdel', Bool.false_eq_true, if_false,
          List.mem_singleton] at hw
        subst hw
        rcases List.mem_cons.mp (List.mem_reverse.mp hc) with h1 | h2
        · subst h1
          exact Or.inl ⟨hdel', by simp⟩
        · exact Or.inr h2
      | cons d tl2 =>
        by_cases hlu : splitBetween hd d = true
        · simp only [splitWordsAux, hdel', Bool.false_eq_true, if_false, hlu,
            if_true] at hw
          rcases List.mem_cons.mp hw with h1 | h2
          · subst h1
            rcases List.mem_cons.mp (List.mem_reverse.mp hc) with h1 | h2
            · subst h1
              exact Or.inl ⟨hdel', by simp⟩
            · exact Or.inr h2
          · rcases ih [] w h2 c hc with ⟨h3, h4⟩ | h5
            · exact Or.inl ⟨h3, List.mem_cons_of_mem _ h4⟩
            · cases h5
        · have hlu' : splitBetween hd d = false := Bool.of_not_eq_true hlu
          cases tl2 with
          | nil =>
            simp only [splitWordsAux, hdel', hlu', Bool.false_eq_true,
              if_false] at hw
            rcases ih (hd :: acc) w hw c hc with ⟨h3, h4⟩ | h5
            · exact Or.inl ⟨h3, List.mem_cons_of_mem _ h4⟩
            · rcases List.mem_cons.mp h5 with h1 | h2
              · subst h1
                exact Or.inl ⟨hdel', by simp⟩
              · exact Or.inr h2
          | cons e tl3 =>
            by_cases hacr : (isUp hd && isUp d && isLow e) = true
            · simp only [splitWordsAux, hdel', hlu', hacr, Bool.false_eq_true,
                if_false, if_true] at hw
              rcases List.mem_cons.mp hw with h1 | h2
              · subst h1
                rcases List.mem_cons.mp (List.mem_reverse.mp hc) with h1 | h2
                · subst h1
                  exact Or.inl ⟨hdel', by simp⟩
                · exact Or.inr h2
              · rcases ih [] w h2 c hc with ⟨h3, h4⟩ | h5
                · exact Or.inl ⟨h3, List.mem_cons_of_mem _ h4⟩
                · cases h5
            · have hacr' : (isUp hd && isUp d && isLow e) = false :=
                Bool.of_not_eq_true hacr
              simp only [splitWordsAux, hdel', hlu', hacr', Bool.false_eq_true,
                if_false] at hw
              rcases ih (hd :: acc) w hw c hc with ⟨h3, h4⟩ | h5
              · exact Or.inl ⟨h3, List.mem_cons_of_mem _ h4⟩
              · rcases List.mem_cons.mp h5 with h1 | h2
                · subst h1
                  exact Or.inl ⟨hdel', by simp⟩
                · exact Or.inr h2

/-- On delimiter-free, uppercase-free, internally boundary-free text
whose junction to the following input is boundary-free, the splitter just
moves the text into the accumulator. -/
theorem splitWordsAux_append :
    ∀ (w rest acc : List Char),
      (∀ c ∈ w, isDelim c = false) → (∀ c ∈ w, isUp c = false) →
      List.Chain' (fun x y => splitBetween x y = false) w →
      (∀ x d t, rest = d :: t → splitBetween x d = false) →
      splitWordsAux (w ++ rest) acc = splitWordsAux rest (w.reverse ++ acc) := by
  intro w
  induction w with
  | nil => intro rest acc _ _ _ _; simp
  | cons hd tl ih =>
    intro rest acc h1 h2 hch hrest
    have hdel : isDelim hd = false := h1 hd (by simp)
    have hup : isUp hd = false := h2 hd (by simp)
    rw [List.cons_append]
    cases htr : tl ++ rest with
    | nil =>
      obtain ⟨ht1, ht2⟩ := List.append_eq_nil.mp htr
      subst ht1
      subst ht2
      simp [splitWordsAux, hdel]
    | cons d tail2 =>
      have hsb : splitBetween hd d = false := by
        cases tl with
        | nil =>
          simp only [List.nil_append] at htr
          exact hrest hd d tail2 htr
        | cons t1 ts =>
          rw [List.cons_append] at htr
          injection htr with htr1 _
          subst htr1
          exact (List.chain'_cons.mp hch).1
      have hstep : splitWordsAux (hd :: d :: tail2) acc
          = splitWordsAux (d :: tail2) (hd :: acc) := by
        cases tail2 with
        | nil =>
          simp only [splitWordsAux, hdel, hsb, Bool.false_eq_true, if_false]
        | cons e tail3 =>
          have hacr : (isUp hd && isUp d && isLow e) = false := by
            rw [hup, Bool.false_and, Bool.false_and]
          simp only [splitWordsAux, hdel, hsb, hacr, Bool.false_eq_true,
            if_false]
      rw [hstep, ← htr,
        ih rest (hd :: acc) (fun c hc => h1 c (List.mem_cons_of_mem _ hc))
          (fun c hc => h2 c (List.mem_cons_of_mem _ hc)) hch.tail hrest]
      simp [List.append_assoc]

/-- A leading space flushes the accumulated word. -/
theorem splitWordsAux_space (rest acc : List Char) :
    splitWordsAux (' ' :: rest) acc = acc.reverse :: splitWordsAux rest [] := by
  simp [splitWordsAux, show isDelim ' ' = true from rfl]

/-- Appending a character compatible with the accumulator's most recent
character preserves the boundary-free chain of the accumulated word. -/
theorem chain'_push (P : Char → Char → Prop) (acc : List Char) (c : Char)
    (h1 : List.Chain' P acc.reverse)
    (h2 : ∀ x ∈ acc.head?, P x c) :
    List.Chain' P (acc.reverse ++ [c]) := by
  rw [List.chain'_append]
  refine ⟨h1, List.chain'_singleton _, ?_⟩
  intro x hx y hy
  rw [List.getLast?_reverse] at hx
  simp only [List.head?_cons, Option.mem_some_iff] at hy
  subst hy
  exact h2 x hx

/-- No word emitted by the splitter contains an internal two-character
boundary: consecutive characters of an emitted word were adjacent in the
input with `splitBetween` false (the invariant also requires this of the
accumulator and of its junction with the upcoming input). -/
theorem splitWordsAux_chain :
    ∀ (l acc : List Char),
      List.Chain' (fun x y => splitBetween x y = false) acc.reverse →
      (∀ x ∈ acc.head?, ∀ d ∈ l.head?, splitBetween x d = false) →
      ∀ w ∈ splitWordsAux l acc,
        List.Chain' (fun x y => splitBetween x y = false) w := by
  intro l
  induction l with
  | nil =>
    intro acc hacc _ w hw
    simp only [splitWordsAux, List.mem_singleton] at hw
    subst hw
    exact hacc
  | cons hd tl ih =>
    intro acc hacc hjun w hw
    have hpush : List.Chain' (fun x y => splitBetween x y = false)
        ((hd :: acc).reverse) := by
      rw [List.reverse_cons]
      exact chain'_push _ acc hd hacc
        (fun x hx => hjun x hx hd (by simp))
    by_cases hdel : isDelim hd = true
    · simp only [splitWordsAux, hdel, if_true] at hw
      rcases List.mem_cons.mp hw with h1 | h2
      · subst h1
        exact hacc
      · exact ih [] List.chain'_nil (by simp) w h2
    · have hdel' : isDelim hd = false := Bool.of_not_eq_true hdel
      cases tl with
      | nil =>
        simp only [splitWordsAux, hdel', Bool.false_eq_true, if_false,
          List.mem_singleton] at hw
        subst hw
        exact hpush
      | cons d tl2 =>
        by_cases hsb : splitBetween hd d = true
        · simp only [splitWordsAux, hdel', Bool.false_eq_true, if_false, hsb,
            if_true] at hw
          rcases List.mem_cons.mp hw with h1 | h2
          · subst h1
            exact hpush
          · exact ih [] List.chain'_nil (by simp) w h2
        · have hsb' : splitBetween hd d = false := Bool.of_not_eq_true hsb
          cases tl2 with
          | nil =>
            simp only [splitWordsAux, hdel', hsb', Bool.false_eq_true,
              if_false] at hw
            refine ih (hd :: acc) hpush ?_ w hw
            intro x hx e he
            simp only [List.head?_cons, Option.mem_some_iff] at hx he
            subst hx
            subst he
            exact hsb'
          | cons e tl3 =>
            by_cases hacr : (isUp hd && isUp d && isLow e) = true
            · simp only [splitWordsAux, hdel', hsb', hacr, Bool.false_eq_true,
                if_false, if_true] at hw
              rcases List.mem_cons.mp hw with h1 | h2
              · subst h1
                exact hpush
              · exact ih [] List.chain'_nil (by simp) w h2
            · have hacr' : (isUp hd && isUp d && isLow e) = false :=
                Bool.of_not_eq_true hacr
              simp only [splitWordsAux, hdel', hsb', hacr', Bool.false_eq_true,
                if_false] at hw
              refine ih (hd :: acc) hpush ?_ w hw
              intro x hx e' he'
              simp only [List.head?_cons, Option.mem_some_iff] at hx he'
              subst hx
              subst he'
              exact hsb'

/-- Every character of a joined word list is a space or a character of
some word. -/
theorem joinWords_chars :
    ∀ (ws : List (List Char)), ∀ c ∈ joinWords ws,
      c = ' ' ∨ ∃ w ∈ ws, c ∈ w := by
  intro ws
  induction ws with
  | nil =>
    intro c hc
    simp [joinWords] at hc
  | cons w rest ih =>
    cases rest with
    | nil =>
      intro c hc
      simp only [joinWords] at hc
      exact Or.inr ⟨w, by simp, hc⟩
    | cons w2 rest2 =>
      intro c hc
      simp only [joinWords] at hc
      rcases List.mem_append.mp hc with h | h
      · exact Or.inr ⟨w, by simp, h⟩
      · rcases List.mem_cons.mp h with h1 | h2
        · exact Or.inl h1
        · rcases ih c h2 with h3 | ⟨w', hw', hc'⟩
          · exact Or.inl h3
          · exact Or.inr ⟨w', List.mem_cons_of_mem _ hw', hc'⟩

/-- The reversal of a nonempty join of nonempty words starts with a
character of one of the words. -/
theorem joinWords_reverse_head :
    ∀ (ws : List (List Char)), ws ≠ [] → (∀ w ∈ ws, w ≠ []) →
      ∃ c t, (joinWords ws).reverse = c :: t ∧ ∃ w ∈ ws, c ∈ w := by
  intro ws
  induction ws with
  | nil => intro h _; exact absurd rfl h
  | cons w rest ih =>
    intro _ hne
    cases rest with
    | nil =>
      have hw : w ≠ [] := hne w (by simp)
      cases hr : w.reverse with
      | nil => exact absurd (List.reverse_eq_nil_iff.mp hr) hw
      | cons c t =>
        refine ⟨c, t, by simp [joinWords, hr], w, by simp, ?_⟩
        have hcm : c ∈ w.reverse := by
          rw [hr]
          exact List.mem_cons_self _ _
        exact List.mem_reverse.mp hcm
    | cons w2 rest2 =>
      obtain ⟨c, t, hct, w', hw', hc'⟩ :=
        ih (by simp) (fun x hx => hne x (List.mem_cons_of_mem _ hx))
      refine ⟨c, t ++ ' ' :: w.reverse, ?_, w',
        List.mem_cons_of_mem _ hw', hc'⟩
      show (joinWords (w :: w2 :: rest2)).reverse = _
      rw [show joinWords (w :: w2 :: rest2)
          = w ++ ' ' :: joinWords (w2 :: rest2) from rfl]
      rw [List.reverse_append, List.reverse_cons, hct]
      simp

/-- `trim_str` fixes a join of nonempty words whose characters all pass
the trim filter. -/
theorem trimBy_joinWords :
    ∀ (ws : List (List Char)), (∀ w ∈ ws, w ≠ []) →
      (∀ w ∈ ws, ∀ c ∈ w, trimCharsP c = false) →
      trimBy trimCharsP (joinWords ws) = joinWords ws := by
  intro ws hne hgood
  cases hws : ws with
  | nil => rfl
  | cons w rest =>
    subst hws
    have hw : w ≠ [] := hne w (by simp)
    obtain ⟨c0, w0, hw0⟩ : ∃ c0 w0, w = c0 :: w0 := by
      cases w with
      | nil => exact absurd rfl hw
      | cons a b => exact ⟨a, b, rfl⟩
    have hhead : ∃ t, joinWords (w :: rest) = c0 :: t := by
      cases rest with
      | nil => exact ⟨w0, by rw [hw0]; rfl⟩
      | cons w2 rest2 =>
        refine ⟨w0 ++ ' ' :: joinWords (w2 :: rest2), ?_⟩
        rw [show joinWords (w :: w2 :: rest2)
            = w ++ ' ' :: joinWords (w2 :: rest2) from rfl, hw0,
          List.cons_append]
    obtain ⟨t, ht⟩ := hhead
    have hc0 : trimCharsP c0 = false :=
      hgood w (by simp) c0 (by rw [hw0]; simp)
    have h1 : (joinWords (w :: rest)).dropWhile trimCharsP
        = joinWords (w :: rest) := by
      rw [ht, List.dropWhile_cons, hc0]
      simp
    obtain ⟨c1, t1, hrev, w1, hw1, hc1mem⟩ :=
      joinWords_reverse_head (w :: rest) (by simp) hne
    have hc1 : trimCharsP c1 = false := hgood w1 hw1 c1 hc1mem
    unfold trimBy
    rw [h1, hrev, List.dropWhile_cons, hc1]
    simp only [Bool.false_eq_true, if_false]
    rw [← hrev, List.reverse_reverse]

/-- Splitting a join of nonempty delimiter-free, uppercase-free,
internally boundary-free words recovers exactly the words. -/
theorem splitWords_joinWords :
    ∀ (ws : List (List Char)), (∀ w ∈ ws, w ≠ []) →
      (∀ w ∈ ws, ∀ c ∈ w, isDelim c = false) →
      (∀ w ∈ ws, ∀ c ∈ w, isUp c = false) →
      (∀ w ∈ ws, List.Chain' (fun x y => splitBetween x y = false) w) →
      splitWords (joinWords ws) = ws := by
  intro ws
  induction ws with
  | nil => intro _ _ _ _; rfl
  | cons w rest ih =>
    intro hne hdel hup hch
    have hW : w ≠ [] := hne w (by simp)
    have hWe : w.isEmpty = false := by
      cases w with
      | nil => exact absurd rfl hW
      | cons a b => rfl
    have hWdel : ∀ c ∈ w, isDelim c = false := hdel w (by simp)
    have hWup : ∀ c ∈ w, isUp c = false := hup w (by simp)
    have hWch : List.Chain' (fun x y => splitBetween x y = false) w :=
      hch w (by simp)
    cases rest with
    | nil =>
      have h1 : splitWordsAux (w ++ []) [] = splitWordsAux [] (w.reverse ++ []) :=
        splitWordsAux_append w [] [] hWdel hWup hWch
          (by intro x d t hh; cases hh)
      rw [List.append_nil] at h1
      unfold splitWords
      rw [show joinWords [w] = w from rfl, h1]
      simp only [splitWordsAux, List.append_nil, List.reverse_reverse]
      rw [List.filter_cons]
      simp [hWe]
    | cons w2 rest2 =>
      have hrest : ∀ (x d : Char) (t : List Char),
          (' ' :: joinWords (w2 :: rest2)) = d :: t →
          splitBetween x d = false := by
        intro x d t he
        injection he with he1 _
        rw [← he1]
        exact splitBetween_space x
      have h1 := splitWordsAux_append w (' ' :: joinWords (w2 :: rest2)) []
        hWdel hWup hWch hrest
      rw [splitWordsAux_space] at h1
      unfold splitWords
      rw [show joinWords (w :: w2 :: rest2)
          = w ++ ' ' :: joinWords (w2 :: rest2) from rfl, h1]
      rw [List.filter_cons]
      simp only [List.append_nil, List.reverse_reverse, hWe,
        Bool.not_false, if_true]
      have h2 := ih (fun x hx => hne x (List.mem_cons_of_mem _ hx))
        (fun x hx => hdel x (List.mem_cons_of_mem _ hx))
        (fun x hx => hup x (List.mem_cons_of_mem _ hx))
        (fun x hx => hch x (List.mem_cons_of_mem _ hx))
      unfold splitWords at h2
      rw [h2]

/-- A join of nonempty, internally boundary-free words free of
delimiters, dots and uppercase letters is a fixed point of the
main.rs 125-127 pipeline. -/
theorem pipelineL_fixed (ws : List (List Char))
    (hne : ∀ w ∈ ws, w ≠ [])
    (hgc : ∀ w ∈ ws, ∀ c ∈ w,
      isDelim c = false ∧ ¬ c = '.' ∧ isUp c = false)
    (hch : ∀ w ∈ ws, List.Chain' (fun x y => splitBetween x y = false) w) :
    pipelineL (joinWords ws) = joinWords ws := by
  have h1 : trimBy trimCharsP (joinWords ws) = joinWords ws :=
    trimBy_joinWords ws hne (fun w hw c hc =>
      trimCharsP_eq_false c (hgc w hw c hc).1 (hgc w hw c hc).2.1)
  have h2 : replaceDots (joinWords ws) = joinWords ws :=
    replaceDots_eq_self _ (by
      intro c hc
      rcases joinWords_chars ws c hc with h | ⟨w, hw, hcw⟩
      · subst h; decide
      · exact (hgc w hw c hcw).2.1)
  have h3 : splitWords (joinWords ws) = ws :=
    splitWords_joinWords ws hne (fun w hw c hc => (hgc w hw c hc).1)
      (fun w hw c hc => (hgc w hw c hc).2.2) hch
  have h4 : ws.map (List.map lowerC) = ws :=
    list_map_id_of _ ws (fun w hw =>
      map_lowerC_eq_self w (fun c hc => (hgc w hw c hc).2.2))
  unfold pipelineL toCaseLower
  rw [h1, h2, h3, h4]

/-- `Case::Lower` conversion of dot-free text yields a join of nonempty,
internally boundary-free words free of delimiters, dots and uppercase
letters. -/
theorem toCaseLower_shape (x : List Char) (hx : ∀ c ∈ x, ¬ c = '.') :
    ∃ ws, toCaseLower x = joinWords ws ∧ (∀ w ∈ ws, w ≠ []) ∧
      (∀ w ∈ ws, ∀ c ∈ w,
        isDelim c = false ∧ ¬ c = '.' ∧ isUp c = false) ∧
      ∀ w ∈ ws, List.Chain' (fun a b => splitBetween a b = false) w := by
  refine ⟨(splitWords x).map (List.map lowerC), rfl, ?_, ?_, ?_⟩
  · intro w hw
    rw [List.mem_map] at hw
    obtain ⟨w0, hw0, rfl⟩ := hw
    have hw0ne : w0 ≠ [] := by
      unfold splitWords at hw0
      have hf := List.of_mem_filter hw0
      intro he
      subst he
      simp at hf
    rw [ne_eq, List.map_eq_nil_iff]
    exact hw0ne
  · intro w hw c hc
    rw [List.mem_map] at hw
    obtain ⟨w0, hw0, rfl⟩ := hw
    rw [List.mem_map] at hc
    obtain ⟨c0, hc0, rfl⟩ := hc
    unfold splitWords at hw0
    have hw0' : w0 ∈ splitWordsAux x [] := List.mem_of_mem_filter hw0
    rcases splitWordsAux_chars x [] w0 hw0' c0 hc0 with ⟨hdl, hmem⟩ | h
    · exact ⟨isDelim_lowerC c0 hdl, lowerC_ne_dot c0 (hx c0 hmem),
        isUp_lowerC c0⟩
    · cases h
  · intro w hw
    rw [List.mem_map] at hw
    obtain ⟨w0, hw0, rfl⟩ := hw
    unfold splitWords at hw0
    have hw0' : w0 ∈ splitWordsAux x [] := List.mem_of_mem_filter hw0
    have hch : List.Chain' (fun a b => splitBetween a b = false) w0 :=
      splitWordsAux_chain x [] List.chain'_nil (by simp) w0 hw0'
    exact (List.chain'_map lowerC).mpr
      (List.Chain'.imp (fun a b hab => splitBetween_lowerC a b hab) hch)

/-- The main.rs 125-127 pipeline is idempotent on character lists. -/
theorem pipelineL_idem (l : List Char) :
    pipelineL (pipelineL l) = pipelineL l := by
  obtain ⟨ws, hws, h1, h2, h3⟩ :=
    toCaseLower_shape (replaceDots (trimBy trimCharsP l)) (replaceDots_no_dot _)
  have hpl : pipelineL l = joinWords ws := hws
  rw [hpl]
  exact pipelineL_fixed ws h1 h2 h3

/-- **C10.** Filename normalization is idempotent: the pipeline of
main.rs 125-127 (trim of `_ . - ` and space from both ends, replacement
of `.` by space, lowercase word-split case conversion) applied to an
already-normalized string returns it unchanged. -/
theorem normalizePipeline_idempotent :
    ∀ s : String, normalizePipeline (normalizePipeline s) = normalizePipeline s := by
  intro s
  unfold normalizePipeline
  exact congrArg String.mk (pipelineL_idem s.data)

end Lajittelia
